import Mathlib

/-!
Shallow embedding of the goup build tool (package main: the Goup pipeline in
the unnamed source file plus goupyaml.go), written to settle the frozen
claims about its specification.

Modelling conventions:
* A filesystem path is a list of components (`Path`); a filesystem is the
  list of existing regular-file paths (`FS`).  Directories exist implicitly
  whenever some file lives below them, so `os.MkdirAll` of an empty
  directory is invisible to the model.
* External effects (HTTP fetch, archive unpack, process spawn) are passed
  in as explicit data or oracle functions, and the functions return traces
  of the effectful steps they perform (fetch counts, rename events, log
  lines), translated statement by statement from the Go source.
-/

namespace GoupModel

/-- Filesystem path, as its list of components.  The repository's `Path`
type (a string with `Child`/`Add`/`Parent` helpers) is not under src/;
`Child`/`Add` become list append and `Parent` becomes `List.dropLast`. -/
abbrev Path := List String

/-- Modelled from the spec: path containment.  `pathLe p q` holds when the
file or directory `q` lies at or below `p`, i.e. `p` is an initial run of
`q`'s components; this is the semantics of `os.RemoveAll` and `os.Rename`
acting on whole subtrees. -/
def pathLe : Path → Path → Bool
  | [], _ => true
  | _ :: _, [] => false
  | a :: as, b :: bs => a == b && pathLe as bs

/-- A filesystem state: the list of regular files that exist. -/
abbrev FS := List Path

/-- Model of `os.RemoveAll(p)`: every file at or below `p` disappears. -/
def removeAll (fs : FS) (p : Path) : FS :=
  fs.filter (fun q => !(pathLe p q))

/-- Re-rooting of a whole subtree, the effect of a successful
`os.Rename(src, dst)` on the file list. -/
def renameTree (fs : FS) (src dst : Path) : FS :=
  fs.map (fun q => if pathLe src q then dst ++ q.drop src.length else q)

/-- Model of a directory-existence test (`Path.Exists`): some file lives at
or below `p`. -/
def existsDir (fs : FS) (p : Path) : Bool :=
  fs.any (fun q => pathLe p q)

/-- All files of `fs` at or below `p`. -/
def filesUnder (fs : FS) (p : Path) : FS :=
  fs.filter (fun q => pathLe p q)

/-! ## Configuration model (goupyaml.go)

Go struct pointers become `Option`; a `nil` pointer is `none`. -/

/-- The BuildGomobileToolchain section (goupyaml.go). -/
structure BuildGomobileToolchain where
  Go : String
  Ndk : String
  Sdk : String
deriving DecidableEq, Repr

/-- The ios build section (goupyaml.go). -/
structure Ios where
  Prefix2 : String
  Out : Path
  Bundleid : String
  Ldflags : String
  Disabled : Bool
deriving DecidableEq, Repr

/-- The android build section (goupyaml.go). -/
structure Android where
  Javapkg : String
  Out : Path
  Ldflags : String
deriving DecidableEq, Repr

/-- The gomobile build section (goupyaml.go); `Ios` and `Android` are
pointer fields, hence `Option`. -/
structure BuildGomobile where
  Toolchain : BuildGomobileToolchain
  Ios : Option Ios
  Android : Option Android
  Modules : List String
  Export : List String
deriving DecidableEq, Repr

/-- The build section (goupyaml.go); `Gomobile` is a pointer field. -/
structure Build where
  Gomobile : Option BuildGomobile
deriving DecidableEq, Repr

/-- The parsed goup.yaml configuration (goupyaml.go); `Build` is a pointer
field. -/
structure GoUpConfiguration where
  Name : String
  Build : Option Build
deriving DecidableEq, Repr

/-- Modelled from the spec: the program arguments (`Args` is not under
src/); only the fields the embedded functions read are kept. -/
structure Args where
  HomeDir : Path
  BaseDir : Path
  Targets : List String
  ResourcesUrl : String
deriving DecidableEq, Repr

/-- The configuration-carrying part of the `Goup` state struct. -/
structure Goup where
  args : Args
  config : GoUpConfiguration
deriving DecidableEq, Repr

/-- A Go runtime panic observable in the embedded evaluation. -/
inductive GoPanic where
  | nilDereference
deriving DecidableEq, Repr

/-- Evaluation of a pointer dereference: following a `nil` pointer panics. -/
def deref {α : Type} (x : Option α) : Except GoPanic α :=
  match x with
  | none => .error .nilDereference
  | some v => .ok v

/-- Model of `hasTarget`: scans `g.args.Targets` for the target or "all". -/
def hasTarget (g : Goup) (target : String) : Bool :=
  g.args.Targets.any (fun s => s == target || s == "all")

/-- Model of `hasAndroidBuild`, with Go's evaluation order made explicit:
`g.config.Build.Gomobile != nil || g.config.Build.Gomobile.Android != nil
&& g.hasTarget("gomobile/android")`.  Reading `.Gomobile` dereferences the
`Build` pointer; the right operand of `||` is evaluated only when the left
operand is false, and it dereferences the `Gomobile` pointer to read
`.Android`. -/
def hasAndroidBuild (g : Goup) : Except GoPanic Bool := do
  let build ← deref g.config.Build
  if build.Gomobile.isSome then
    pure true
  else do
    let gm ← deref build.Gomobile
    pure (gm.Android.isSome && hasTarget g "gomobile/android")

/-- Model of `hasIosBuild`, same shape as `hasAndroidBuild` with the `Ios`
field and the "gomobile/ios" target. -/
def hasIosBuild (g : Goup) : Except GoPanic Bool := do
  let build ← deref g.config.Build
  if build.Gomobile.isSome then
    pure true
  else do
    let gm ← deref build.Gomobile
    pure (gm.Ios.isSome && hasTarget g "gomobile/ios")

/-- The gomobile section reachable from a configuration, if every pointer
on the way is non-nil. -/
def gomobileSection (c : GoUpConfiguration) : Option BuildGomobile :=
  c.Build.bind (fun b => b.Gomobile)

/-! ## loadResources (catalog refresh)

The snapshot file on disk is `Option (String × ℚ)`: its content and its
age in hours (`time.Now().Sub(stat.ModTime()).Hours()`, a float in Go,
modelled as a rational); `none` covers a missing file or a failing
`os.Stat`.  The network is an oracle `Except String String`: either the
fetched body or a transport error. -/

/-- One observable effect of `loadResources`. -/
inductive LoadEvent where
  | removeFile
  | httpGet (url : String)
  | writeFile (data : String)
deriving DecidableEq, Repr

/-- Outcome of `loadResources`: the ordered effect trace, the snapshot
file left on disk, and either the content handed to the XML parser or the
error returned. -/
structure LoadOutcome where
  events : List LoadEvent
  fileAfter : Option String
  result : Except String String
deriving Repr

/-- The stale branch of `loadResources` (lines 89–104): best-effort
`os.Remove` of the snapshot, then `http.Get`; on transport failure return
the error (the file is already gone), otherwise write the body back and
hand it to the parser. -/
def refetchResources (url : String) (net : Except String String) : LoadOutcome :=
  match net with
  | .error e =>
    { events := [.removeFile, .httpGet url]
      fileAfter := none
      result := .error ("failed to get resource list: " ++ e) }
  | .ok data =>
    { events := [.removeFile, .httpGet url, .writeFile data]
      fileAfter := some data
      result := .ok data }

/-- Model of `loadResources`: refresh when `os.Stat` fails or the file is
older than 24 hours (`... .Hours() > 24`), otherwise keep the file and
parse it as it is. -/
def loadResources (diskFile : Option (String × ℚ)) (url : String)
    (net : Except String String) : LoadOutcome :=
  match diskFile with
  | none => refetchResources url net
  | some (content, ageHours) =>
    if ageHours > 24 then
      refetchResources url net
    else
      { events := [], fileAfter := some content, result := .ok content }

/-! ## Versions and the dependency merge (copyModulesToWorkspace, first loop) -/

/-- Modelled from the spec: the semantic version attached to a vendored
module record.  The repository's `Version` type and its `IsNewer` method
are not under src/; the spec requires a total version ordering, modelled
as a semver triple. -/
structure Version where
  major : Nat
  minor : Nat
  patch : Nat
deriving DecidableEq, Repr

/-- Modelled from the spec: `Version.IsNewer` as the strict lexicographic
order on (major, minor, patch). -/
def Version.IsNewer (a b : Version) : Bool :=
  decide (b.major < a.major ∨ (a.major = b.major ∧
    (b.minor < a.minor ∨ (a.minor = b.minor ∧ b.patch < a.patch))))

/-- A record parsed from a vendor `modules.txt`: the dependency's module
name (as path components), its declared version, and the location of its
vendored source tree. -/
structure VendoredModule where
  ModuleName : Path
  Version : Version
  Local : Path
deriving DecidableEq, Repr

/-- Lookup in the dependency map, keyed by module name.  The Go
`map[string]VendoredModule` is modelled as an association list with at
most one entry per name. -/
def lookupDep (deps : List VendoredModule) (name : Path) : Option VendoredModule :=
  deps.find? (fun d => d.ModuleName == name)

/-- Map update `dependencies[mod.ModuleName] = mod`: replace the entry
with that name, or append the record when the name is new. -/
def updateDep : List VendoredModule → VendoredModule → List VendoredModule
  | [], mod => [mod]
  | d :: ds, mod =>
    if d.ModuleName == mod.ModuleName then mod :: ds else d :: updateDep ds mod

/-- One step of the merge loop (lines 349–359): `dep, ok :=
dependencies[mod.ModuleName]; if !ok || mod.Version.IsNewer(dep.Version)
{ dependencies[mod.ModuleName] = mod }`. -/
def depInsert (deps : List VendoredModule) (mod : VendoredModule) : List VendoredModule :=
  match lookupDep deps mod.ModuleName with
  | none => updateDep deps mod
  | some dep => if mod.Version.IsNewer dep.Version then updateDep deps mod else deps

/-- Folding every parsed vendor record (in processing order) into the
dependency map. -/
def mergeDeps (mods : List VendoredModule) : List VendoredModule :=
  mods.foldl depInsert []

/-- The newer of two versions, keeping the first argument on a tie. -/
def vmax (a v : Version) : Version :=
  if v.IsNewer a then v else a

/-- One step of the running maximum over versions. -/
def vstep (acc : Option Version) (v : Version) : Option Version :=
  match acc with
  | none => some v
  | some a => some (vmax a v)

/-- Maximum of a list of versions under `IsNewer`, the abstract value the
merge is supposed to retain per name; `none` on the empty list. -/
def maxVersion (vs : List Version) : Option Version :=
  vs.foldl vstep none

/-! ## Toolchain provisioning (prepareGomobileToolchain, per-resource loop body) -/

/-- A downloadable toolchain resource from the catalog. -/
structure Resource where
  Name : String
  Version : String
  Url : String
deriving DecidableEq, Repr

/-- Errors surfaced by the embedded pipeline steps. -/
inductive GoError where
  | fetchFailed (msg : String)
  | invalidResource (res : Resource)
  | renameFailed (src dst : Path)
deriving DecidableEq, Repr

/-- The final toolchain directory
`HomeDir/toolchains/<Name>-<Version>` (line 154). -/
def targetFolder (args : Args) (res : Resource) : Path :=
  args.HomeDir ++ ["toolchains", res.Name ++ "-" ++ res.Version]

/-- The staging directory, the target path with ".tmp" appended to its
last component (line 160). -/
def tmpTargetFolder (args : Args) (res : Resource) : Path :=
  args.HomeDir ++ ["toolchains", res.Name ++ "-" ++ res.Version ++ ".tmp"]

/-- Top-level entries an unpacked archive yields, as `ioutil.ReadDir` of
the staging directory sees them: the distinct first components of the
extracted relative file paths. -/
def topEntries (rel : List Path) : List String :=
  (rel.filterMap List.head?).dedup

/-- Whether a top-level entry is a directory: some extracted file lies
strictly below it. -/
def isDirEntry (rel : List Path) (e : String) : Bool :=
  rel.any (fun p => p.head? == some e && decide (1 < p.length))

/-- Model of `os.Rename(src, dst)`: fails when nothing exists at `src`. -/
def renameFs (fs : FS) (src dst : Path) : Except GoError FS :=
  if existsDir fs src then .ok (renameTree fs src dst) else .error (.renameFailed src dst)

/-- Outcome of the per-resource ensure step: how many downloads ran,
which rename events happened (in order), the filesystem afterwards, the
path the step leaves valid for the resource (when it succeeds), and the
returned error, if any. -/
structure EnsureOutcome where
  downloads : Nat
  renames : List (Path × Path)
  fs : FS
  path : Option Path
  result : Except GoError Unit
deriving Repr

/-- The loop body of `prepareGomobileToolchain` for one resource (lines
153–192).  `unpack` is the collaborator `downloadAndUnpack`'s result: the
relative file paths the archive leaves in the staging directory, or a
download error.  Steps, in source order: presence check on the target
(`continue` when it exists); best-effort `os.RemoveAll` of a stale
staging directory and `os.MkdirAll` of a fresh one; download and unpack;
`ReadDir`; empty extraction is an error; a single top-level directory is
renamed to the target (unwrap), otherwise the staging root is; finally
the staging directory is removed best-effort. -/
def ensureToolchainResource (args : Args) (fs : FS) (res : Resource)
    (unpack : Except String (List Path)) : EnsureOutcome :=
  let target := targetFolder args res
  if existsDir fs target then
    { downloads := 0, renames := [], fs := fs, path := some target, result := .ok () }
  else
    let tmp := tmpTargetFolder args res
    let fs1 := removeAll fs tmp
    match unpack with
    | .error e =>
      { downloads := 1, renames := [], fs := fs1, path := none
        result := .error (.fetchFailed e) }
    | .ok rel =>
      let fs2 := fs1 ++ rel.map (fun p => tmp ++ p)
      let tops := topEntries rel
      if tops.length == 0 then
        { downloads := 1, renames := [], fs := fs2, path := none
          result := .error (.invalidResource res) }
      else if tops.length == 1 && isDirEntry rel (tops.headD "") then
        let inner := tmp ++ [tops.headD ""]
        match renameFs fs2 inner target with
        | .error e =>
          { downloads := 1, renames := [], fs := fs2, path := none, result := .error e }
        | .ok fs3 =>
          { downloads := 1, renames := [(inner, target)], fs := removeAll fs3 tmp
            path := some target, result := .ok () }
      else
        match renameFs fs2 tmp target with
        | .error e =>
          { downloads := 1, renames := [], fs := fs2, path := none, result := .error e }
        | .ok fs3 =>
          { downloads := 1, renames := [(tmp, target)], fs := removeAll fs3 tmp
            path := some target, result := .ok () }

/-! ## Workspace assembly (copyModulesToWorkspace)

Per module, the external effects of the first loop (resolving the module,
`CopyDir`, `go mod vendor`, `ParseModulesTxT`) are summarised by a
`ModuleInput`: the canonical module name from its go.mod, the relative
file paths of the module copy after vendoring (including the `vendor`
subtree), and the parsed vendor records.  Since the first loop's
filesystem writes and its dependency-map updates touch disjoint state,
the model runs the staging pass over all modules and then the merge fold
over the concatenated records, which is observationally the same
interleaving as the source's single loop. -/

/-- The per-module data the first loop of `copyModulesToWorkspace`
obtains from its collaborators. -/
structure ModuleInput where
  modName : Path
  files : List Path
  vendored : List VendoredModule
deriving Repr

/-- Staging of one module (lines 323–341): clear
`goPathSrc/<modName>` and copy the module's tree (post-vendoring) there. -/
def stageModule (goPathSrc : Path) (fs : FS) (m : ModuleInput) : FS :=
  let targetDir := goPathSrc ++ m.modName
  removeAll fs targetDir ++ m.files.map (fun p => targetDir ++ p)

/-- All vendor records of all modules, in processing order. -/
def allVendored (modules : List ModuleInput) : List VendoredModule :=
  modules.foldl (fun acc m => acc ++ m.vendored) []

/-- Promotion of one dependency (lines 363–378): `targetDir :=
goPathSrc + dep.ModuleName`; `os.RemoveAll(targetDir.Parent())`;
`os.MkdirAll(targetDir.Parent())`; `os.Rename(dep.Local, targetDir)`.
Note the removal is of the parent of the target. -/
def promoteOne (goPathSrc : Path) (st : Except GoError FS) (dep : VendoredModule) :
    Except GoError FS := do
  let fs ← st
  let targetDir := goPathSrc ++ dep.ModuleName
  let fs := removeAll fs targetDir.dropLast
  renameFs fs dep.Local targetDir

/-- The promote loop over the collected dependency entries.  Go's map
iteration order is unspecified; the fold takes the entry list as given
(the association-list order is one admissible order). -/
def promotePhase (goPathSrc : Path) (deps : List VendoredModule) (fs : FS) :
    Except GoError FS :=
  deps.foldl (promoteOne goPathSrc) (.ok fs)

/-- The cleanup loop (lines 381–394): for every originally resolved
module, `os.RemoveAll` of `goPathSrc/<modName>/vendor`. -/
def cleanupPhase (goPathSrc : Path) (modNames : List Path) (fs : FS) : FS :=
  modNames.foldl (fun acc name => removeAll acc (goPathSrc ++ name ++ ["vendor"])) fs

/-- Model of `copyModulesToWorkspace`: stage each module, fold all vendor
records into the dependency map, promote every collected entry, then
clean the nested vendor subtrees. -/
def copyModulesToWorkspace (goPathSrc : Path) (modules : List ModuleInput) (fs0 : FS) :
    Except GoError FS :=
  let fs1 := modules.foldl (stageModule goPathSrc) fs0
  let deps := mergeDeps (allVendored modules)
  match promotePhase goPathSrc deps fs1 with
  | .error e => .error e
  | .ok fs2 => .ok (cleanupPhase goPathSrc (modules.map (fun m => m.modName)) fs2)

/-! ## Run (external process invocation) -/

/-- Log severities used by `Run`: `logger.Error` on failure,
`logger.Debug` (the informational, non-error level) otherwise. -/
inductive Severity where
  | debug
  | error
deriving DecidableEq, Repr

/-- One logged line. -/
structure LogLine where
  severity : Severity
  line : String
deriving DecidableEq, Repr

/-- Result of a completed external process: its combined standard output
and standard error, and its error (`nil` for a zero exit). -/
structure ProcResult where
  out : String
  err : Option String
deriving DecidableEq, Repr

/-- The `k=v` environment slice built from the environment map (lines
236–239). -/
def envList (env : List (String × String)) : List String :=
  env.map (fun kv => kv.1 ++ "=" ++ kv.2)

/-- The logging loop of `Run` (lines 253–259), one log line per captured
line, error severity exactly when the invocation failed. -/
def logPass (err : Option String) (lines : List String) : List LogLine :=
  lines.foldl (fun acc line =>
    acc ++ [if err.isSome then ⟨.error, line⟩ else ⟨.debug, line⟩]) []

/-- Everything `Run` does that is observable: the spawn request it issued
(binary, arguments, environment slice, working directory), the log lines
it emitted, and the value it returned. -/
structure RunOutcome where
  spawnedName : String
  spawnedArgs : List String
  spawnedEnv : List String
  spawnedDir : Path
  logs : List LogLine
  lines : List String
  err : Option String
deriving Repr

/-- Model of `Run` (lines 232–262): build the command with the current
environment snapshot and working directory, block on
`cmd.CombinedOutput()` (the oracle `spawn`), split the combined output on
newlines, log every line, and return the lines with the process error. -/
def Run (env : List (String × String)) (cwd : Path)
    (spawn : String → List String → List String → Path → ProcResult)
    (name : String) (args : List String) : RunOutcome :=
  let cmdEnv := envList env
  let r := spawn name args cmdEnv cwd
  let lines := r.out.splitOn "\n"
  { spawnedName := name, spawnedArgs := args, spawnedEnv := cmdEnv, spawnedDir := cwd
    logs := logPass r.err lines
    lines := lines
    err := r.err }

/-! ## Theorems -/

/-- C3: for every configuration in which the gomobile build section is
present, `hasAndroidBuild` and `hasIosBuild` return true regardless of
whether the Android/Ios sub-section is present and regardless of the
selected targets: the "build section present" disjunct short-circuits the
sub-section and target checks. -/
theorem hasBuild_true_of_gomobile_present (g : Goup) (b : Build) (gm : BuildGomobile)
    (hb : g.config.Build = some b) (hgm : b.Gomobile = some gm) :
    hasAndroidBuild g = .ok true ∧ hasIosBuild g = .ok true := by
  constructor <;>
    simp [hasAndroidBuild, hasIosBuild, deref, hb, hgm, Bind.bind, Except.bind,
        Pure.pure, Except.pure]

/-- Witness for C3: a configuration with a gomobile section but neither
an Android nor an iOS sub-section and no selected targets. -/
theorem hasBuild_true_of_gomobile_present_witness :
    hasAndroidBuild
        ⟨⟨["h"], ["b"], [], "u"⟩,
         ⟨"p", some ⟨some ⟨⟨"", "", ""⟩, none, none, [], []⟩⟩⟩⟩ = .ok true
    ∧ hasIosBuild
        ⟨⟨["h"], ["b"], [], "u"⟩,
         ⟨"p", some ⟨some ⟨⟨"", "", ""⟩, none, none, [], []⟩⟩⟩⟩ = .ok true :=
  hasBuild_true_of_gomobile_present _ _ _ rfl rfl

/-- C4: `hasAndroidBuild` and `hasIosBuild` are only safe when the
gomobile section is non-nil: for every configuration without a gomobile
section the evaluation dereferences a nil pointer instead of returning
false. -/
theorem hasBuild_panics_without_gomobile (g : Goup)
    (h : gomobileSection g.config = none) :
    hasAndroidBuild g = .error .nilDereference
    ∧ hasIosBuild g = .error .nilDereference := by
  cases hb : g.config.Build with
  | none =>
    constructor <;>
      simp [hasAndroidBuild, hasIosBuild, deref, hb, Bind.bind, Except.bind,
        Pure.pure, Except.pure]
  | some b =>
    have hgm : b.Gomobile = none := by
      simpa [gomobileSection, hb] using h
    constructor <;>
      simp [hasAndroidBuild, hasIosBuild, deref, hb, hgm, Bind.bind, Except.bind,
        Pure.pure, Except.pure, Functor.map, Except.map]

/-- Witness for C4: a configuration whose build section exists but whose
gomobile pointer is nil panics in both predicates. -/
theorem hasBuild_panics_without_gomobile_witness :
    hasAndroidBuild ⟨⟨["h"], ["b"], ["all"], "u"⟩, ⟨"p", some ⟨none⟩⟩⟩
        = .error .nilDereference
    ∧ hasIosBuild ⟨⟨["h"], ["b"], ["all"], "u"⟩, ⟨"p", some ⟨none⟩⟩⟩
        = .error .nilDereference :=
  hasBuild_panics_without_gomobile _ rfl

/-- C5: the catalog refresh performs zero fetches when the snapshot file
exists and is younger than 24 hours; when the file is missing or older
than 24 hours it first removes the old file, then performs exactly one
fetch and writes the body back; a transport failure is returned as an
error with no snapshot file left behind. -/
theorem loadResources_refresh_policy :
    (∀ (c : String) (a : ℚ) (url : String) (net : Except String String), a < 24 →
        loadResources (some (c, a)) url net = ⟨[], some c, .ok c⟩)
    ∧ (∀ (url data : String),
        loadResources none url (.ok data)
          = ⟨[.removeFile, .httpGet url, .writeFile data], some data, .ok data⟩)
    ∧ (∀ (c : String) (a : ℚ) (url data : String), 24 < a →
        loadResources (some (c, a)) url (.ok data)
          = ⟨[.removeFile, .httpGet url, .writeFile data], some data, .ok data⟩)
    ∧ (∀ (url e : String),
        loadResources none url (.error e)
          = ⟨[.removeFile, .httpGet url], none,
             .error ("failed to get resource list: " ++ e)⟩)
    ∧ (∀ (c : String) (a : ℚ) (url e : String), 24 < a →
        loadResources (some (c, a)) url (.error e)
          = ⟨[.removeFile, .httpGet url], none,
             .error ("failed to get resource list: " ++ e)⟩) := by
  refine ⟨?_, ?_, ?_, ?_, ?_⟩
  · intro c a url net h
    simp [loadResources, not_lt.mpr (le_of_lt h)]
  · intro url data
    simp [loadResources, refetchResources]
  · intro c a url data h
    simp [loadResources, refetchResources, h]
  · intro url e
    simp [loadResources, refetchResources]
  · intro c a url e h
    simp [loadResources, refetchResources, h]

/-- Witness for C5: a 3-hour-old file is kept without any fetch, and a
failing fetch over a missing file returns the error with no file written. -/
theorem loadResources_refresh_policy_witness :
    loadResources (some ("catalog", 3)) "http-u" (.ok "fresh")
      = ⟨[], some "catalog", .ok "catalog"⟩
    ∧ loadResources (some ("catalog", 30)) "http-u" (.ok "fresh")
      = ⟨[.removeFile, .httpGet "http-u", .writeFile "fresh"], some "fresh", .ok "fresh"⟩
    ∧ loadResources none "http-u" (.error "down")
      = ⟨[.removeFile, .httpGet "http-u"], none,
         .error ("failed to get resource list: " ++ "down")⟩ :=
  ⟨loadResources_refresh_policy.1 "catalog" 3 "http-u" (.ok "fresh") (by norm_num),
   loadResources_refresh_policy.2.2.1 "catalog" 30 "http-u" "fresh" (by norm_num),
   loadResources_refresh_policy.2.2.2.1 "http-u" "down"⟩

/-- C6: when the target toolchain directory already exists, the ensure
step downloads nothing, renames nothing, leaves the filesystem unchanged,
and resolves to the same target path. -/
theorem ensure_noop_when_target_exists (args : Args) (fs : FS) (res : Resource)
    (unpack : Except String (List Path))
    (h : existsDir fs (targetFolder args res) = true) :
    ensureToolchainResource args fs res unpack
      = { downloads := 0, renames := [], fs := fs
          path := some (targetFolder args res), result := .ok () } := by
  simp [ensureToolchainResource, h]

/-- Witness for C6: with `toolchains/go-1.12.4` already materialized, a
second ensure call is a no-op resolving to the same path. -/
theorem ensure_noop_when_target_exists_witness :
    ensureToolchainResource ⟨["home"], ["base"], ["all"], "u"⟩
        [["home", "toolchains", "go-1.12.4", "bin", "gobin"]]
        ⟨"go", "1.12.4", "u"⟩ (.ok [["go", "README"]])
      = { downloads := 0, renames := []
          fs := [["home", "toolchains", "go-1.12.4", "bin", "gobin"]]
          path := some ["home", "toolchains", "go-1.12.4"], result := .ok () } :=
  ensure_noop_when_target_exists _ _ _ _ (by decide)

/-- Removal of some other subtree cannot make a directory spring into
existence. -/
theorem existsDir_removeAll_false (fs : FS) (p q : Path)
    (h : existsDir fs p = false) : existsDir (removeAll fs q) p = false := by
  simp only [existsDir, removeAll, List.any_eq_false] at h ⊢
  intro x hx
  exact h x (List.mem_filter.mp hx).1

/-- C8: an extraction yielding zero files makes the ensure step fail with
the invalid-resource error naming the resource, with no rename performed
and no final target directory created. -/
theorem ensure_empty_extraction_fails (args : Args) (fs : FS) (res : Resource)
    (h : existsDir fs (targetFolder args res) = false) :
    (ensureToolchainResource args fs res (.ok [])).result
        = .error (.invalidResource res)
    ∧ (ensureToolchainResource args fs res (.ok [])).renames = []
    ∧ (ensureToolchainResource args fs res (.ok [])).downloads = 1
    ∧ existsDir (ensureToolchainResource args fs res (.ok [])).fs
        (targetFolder args res) = false := by
  have hfs : (ensureToolchainResource args fs res (.ok [])).fs
      = removeAll fs (tmpTargetFolder args res) := by
    simp [ensureToolchainResource, h, topEntries]
  refine ⟨?_, ?_, ?_, ?_⟩
  · simp [ensureToolchainResource, h, topEntries]
  · simp [ensureToolchainResource, h, topEntries]
  · simp [ensureToolchainResource, h, topEntries]
  · rw [hfs]
    exact existsDir_removeAll_false fs _ _ h

/-- Witness for C8: an empty archive for the go toolchain resource fails
and leaves no target behind. -/
theorem ensure_empty_extraction_fails_witness :
    (ensureToolchainResource ⟨["home"], ["base"], ["all"], "u"⟩
        [["other", "file"]] ⟨"go", "1.12.4", "u"⟩ (.ok [])).result
      = .error (.invalidResource ⟨"go", "1.12.4", "u"⟩)
    ∧ (ensureToolchainResource ⟨["home"], ["base"], ["all"], "u"⟩
        [["other", "file"]] ⟨"go", "1.12.4", "u"⟩ (.ok [])).renames = []
    ∧ (ensureToolchainResource ⟨["home"], ["base"], ["all"], "u"⟩
        [["other", "file"]] ⟨"go", "1.12.4", "u"⟩ (.ok [])).downloads = 1
    ∧ existsDir (ensureToolchainResource ⟨["home"], ["base"], ["all"], "u"⟩
        [["other", "file"]] ⟨"go", "1.12.4", "u"⟩ (.ok [])).fs
        ["home", "toolchains", "go-1.12.4"] = false :=
  ensure_empty_extraction_fails ⟨["home"], ["base"], ["all"], "u"⟩
    [["other", "file"]] ⟨"go", "1.12.4", "u"⟩ (by decide)

/-- An append-accumulating fold is a map. -/
theorem foldl_append_singleton {α β : Type} (f : α → β) (xs : List α) (acc : List β) :
    xs.foldl (fun a x => a ++ [f x]) acc = acc ++ xs.map f := by
  induction xs generalizing acc with
  | nil => simp
  | cons x xs ih => simp [ih]

/-- The logging loop emits one line per captured line, in order. -/
theorem logPass_eq_map (err : Option String) (lines : List String) :
    logPass err lines
      = lines.map (fun line =>
          if err.isSome then ⟨.error, line⟩ else ⟨.debug, line⟩) := by
  simpa [logPass] using
    foldl_append_singleton
      (fun line => if err.isSome then (⟨.error, line⟩ : LogLine) else ⟨.debug, line⟩)
      lines []

/-- C10: `Run` spawns the process with the current environment snapshot
and working directory, waits for its combined output, captures it as the
ordered sequence of newline-separated lines, logs every line with error
severity exactly when the invocation failed and with the informational
(debug) severity otherwise, and returns those lines with the process
result. -/
theorem Run_spec (env : List (String × String)) (cwd : Path)
    (spawn : String → List String → List String → Path → ProcResult)
    (name : String) (args : List String) :
    (Run env cwd spawn name args).spawnedName = name
    ∧ (Run env cwd spawn name args).spawnedArgs = args
    ∧ (Run env cwd spawn name args).spawnedEnv = envList env
    ∧ (Run env cwd spawn name args).spawnedDir = cwd
    ∧ (Run env cwd spawn name args).lines
        = (spawn name args (envList env) cwd).out.splitOn "\n"
    ∧ (Run env cwd spawn name args).err = (spawn name args (envList env) cwd).err
    ∧ (Run env cwd spawn name args).logs
        = (Run env cwd spawn name args).lines.map (fun line =>
            if (spawn name args (envList env) cwd).err.isSome then ⟨.error, line⟩
            else ⟨.debug, line⟩) := by
  refine ⟨rfl, rfl, rfl, rfl, rfl, rfl, ?_⟩
  simp [Run, logPass_eq_map]

/-! ## Merge lemmas (towards C2) -/

/-- Taking the newer version is commutative. -/
theorem vmax_comm (a b : Version) : vmax a b = vmax b a := by
  rcases a with ⟨a1, a2, a3⟩
  rcases b with ⟨b1, b2, b3⟩
  simp only [vmax, Version.IsNewer, decide_eq_true_eq]
  split_ifs <;> (first | rfl | (simp only [Version.mk.injEq]; omega))

/-- Taking the newer version is associative. -/
theorem vmax_assoc (a b c : Version) : vmax (vmax a b) c = vmax a (vmax b c) := by
  rcases a with ⟨a1, a2, a3⟩
  rcases b with ⟨b1, b2, b3⟩
  rcases c with ⟨c1, c2, c3⟩
  simp only [vmax, Version.IsNewer, decide_eq_true_eq]
  split_ifs <;> (try rfl) <;> (simp_all [Version.mk.injEq]) <;> omega

/-- The running-maximum step is right-commutative. -/
theorem vstep_right_comm (acc : Option Version) (a b : Version) :
    vstep (vstep acc a) b = vstep (vstep acc b) a := by
  cases acc with
  | none =>
    show some (vmax a b) = some (vmax b a)
    rw [vmax_comm]
  | some c =>
    show some (vmax (vmax c a) b) = some (vmax (vmax c b) a)
    rw [vmax_assoc, vmax_assoc, vmax_comm a b]

/-- The maximum version of a list is invariant under permutation. -/
theorem maxVersion_perm {vs1 vs2 : List Version} (h : vs1.Perm vs2) :
    maxVersion vs1 = maxVersion vs2 :=
  @List.Perm.foldl_eq _ _ vstep _ _ ⟨vstep_right_comm⟩ h none

/-- Lookup after an assoc-map update at the updated key. -/
theorem lookupDep_updateDep_self (deps : List VendoredModule) (mod : VendoredModule) :
    lookupDep (updateDep deps mod) mod.ModuleName = some mod := by
  induction deps with
  | nil => simp [updateDep, lookupDep, List.find?]
  | cons d ds ih =>
    by_cases hd : d.ModuleName = mod.ModuleName
    · simp [updateDep, lookupDep, List.find?, hd]
    · simp only [updateDep, beq_eq_false_iff_ne.mpr hd, if_false]
      simpa [lookupDep, List.find?, beq_eq_false_iff_ne.mpr hd] using ih

/-- Lookup after an assoc-map update at any other key. -/
theorem lookupDep_updateDep_ne (deps : List VendoredModule) (mod : VendoredModule)
    (name : Path) (h : name ≠ mod.ModuleName) :
    lookupDep (updateDep deps mod) name = lookupDep deps name := by
  induction deps with
  | nil =>
    simp [updateDep, lookupDep, List.find?, beq_eq_false_iff_ne.mpr (Ne.symm h)]
  | cons d ds ih =>
    by_cases hd : d.ModuleName = mod.ModuleName
    · have hdn : d.ModuleName ≠ name := by rw [hd]; exact Ne.symm h
      simp [updateDep, lookupDep, List.find?, hd, beq_eq_false_iff_ne.mpr hdn,
        beq_eq_false_iff_ne.mpr (Ne.symm h)]
    · by_cases hdname : d.ModuleName = name
      · simp [updateDep, lookupDep, List.find?, beq_eq_false_iff_ne.mpr hd, hdname, h]
      · simp only [updateDep, beq_eq_false_iff_ne.mpr hd, if_false]
        simpa [lookupDep, List.find?, beq_eq_false_iff_ne.mpr hdname] using ih

/-- Lookup through one merge step, by key. -/
theorem lookupDep_depInsert (deps : List VendoredModule) (mod : VendoredModule)
    (name : Path) :
    lookupDep (depInsert deps mod) name
      = if name = mod.ModuleName then
          match lookupDep deps mod.ModuleName with
          | none => some mod
          | some dep =>
            if mod.Version.IsNewer dep.Version then some mod else some dep
        else lookupDep deps name := by
  by_cases hname : name = mod.ModuleName
  · subst hname
    cases hl : lookupDep deps mod.ModuleName with
    | none => simp [depInsert, hl, lookupDep_updateDep_self]
    | some dep =>
      by_cases hnew : mod.Version.IsNewer dep.Version
      · simp [depInsert, hl, hnew, lookupDep_updateDep_self]
      · simp [depInsert, hl, hnew]
  · cases hl : lookupDep deps mod.ModuleName with
    | none => simp [depInsert, hl, hname, lookupDep_updateDep_ne deps mod name hname]
    | some dep =>
      by_cases hnew : mod.Version.IsNewer dep.Version
      · simp [depInsert, hl, hnew, hname, lookupDep_updateDep_ne deps mod name hname]
      · simp [depInsert, hl, hnew, hname]

/-- Folding one more record. -/
theorem mergeDeps_concat (l : List VendoredModule) (m : VendoredModule) :
    mergeDeps (l ++ [m]) = depInsert (mergeDeps l) m := by
  simp [mergeDeps, List.foldl_append]

/-- Running maximum of one more version. -/
theorem maxVersion_concat (vs : List Version) (v : Version) :
    maxVersion (vs ++ [v]) = vstep (maxVersion vs) v := by
  simp [maxVersion, List.foldl_append]

/-- The version the merge retains for a name is exactly the maximum of
the versions declared for that name. -/
theorem mergeDeps_version_char (l : List VendoredModule) (name : Path) :
    (lookupDep (mergeDeps l) name).map (fun d => d.Version)
      = maxVersion
          (((l.filter (fun d => d.ModuleName == name)).map (fun d => d.Version))) := by
  induction l using List.reverseRecOn with
  | nil => simp [mergeDeps, lookupDep, maxVersion, List.find?]
  | append_singleton l m ih =>
    rw [mergeDeps_concat, lookupDep_depInsert]
    by_cases hname : name = m.ModuleName
    · subst hname
      rw [if_pos rfl, List.filter_append, List.map_append]
      have hm : List.filter (fun d => d.ModuleName == m.ModuleName) [m] = [m] := by
        simp
      rw [hm]
      simp only [List.map_cons, List.map_nil]
      rw [maxVersion_concat, ← ih]
      cases hl : lookupDep (mergeDeps l) m.ModuleName with
      | none => simp [hl, vstep]
      | some dep =>
        by_cases hnew : m.Version.IsNewer dep.Version
        · simp [hl, vstep, vmax, hnew]
        · simp [hl, vstep, vmax, hnew]
    · rw [if_neg hname, List.filter_append]
      have hm : List.filter (fun d => d.ModuleName == name) [m] = [] := by
        simp [beq_eq_false_iff_ne.mpr (Ne.symm hname)]
      rw [hm, List.append_nil]
      exact ih

/-- The record the merge retains for a name is one of the folded records
and carries that name. -/
theorem mergeDeps_mem (l : List VendoredModule) (name : Path) (dep : VendoredModule)
    (h : lookupDep (mergeDeps l) name = some dep) :
    dep ∈ l ∧ dep.ModuleName = name := by
  induction l using List.reverseRecOn with
  | nil => simp [mergeDeps, lookupDep, List.find?] at h
  | append_singleton l m ih =>
    rw [mergeDeps_concat, lookupDep_depInsert] at h
    by_cases hname : name = m.ModuleName
    · rw [if_pos hname] at h
      cases hl : lookupDep (mergeDeps l) m.ModuleName with
      | none =>
        rw [hl] at h
        cases h
        exact ⟨List.mem_append_right _ (List.mem_singleton.mpr rfl), hname.symm⟩
      | some dep0 =>
        rw [hl] at h
        by_cases hnew : m.Version.IsNewer dep0.Version
        · have h2 : m = dep := by simpa [hnew] using h
          subst h2
          exact ⟨List.mem_append_right _ (List.mem_singleton.mpr rfl), hname.symm⟩
        · have h2 : dep0 = dep := by simpa [hnew] using h
          subst h2
          have hl2 : lookupDep (mergeDeps l) name = some dep0 := by
            rw [hname]; exact hl
          rcases ih hl2 with ⟨hmem, hn⟩
          exact ⟨List.mem_append_left _ hmem, hn⟩
    · rw [if_neg hname] at h
      rcases ih h with ⟨hmem, hn⟩
      exact ⟨List.mem_append_left _ hmem, hn⟩

/-- C2: one merge step replaces the current entry for a name exactly when
the new record's version is strictly newer (an equal or older version
leaves the map unchanged, so ties keep the first-seen entry); the version
retained per name is the greatest version declared for that name; the
retained record is one of the declared records for that name; and the
retained (name, version) pairs are independent of the order in which the
records are processed. -/
theorem mergeDeps_newest_wins :
    (∀ (deps : List VendoredModule) (mod : VendoredModule),
        lookupDep deps mod.ModuleName = none →
        lookupDep (depInsert deps mod) mod.ModuleName = some mod)
    ∧ (∀ (deps : List VendoredModule) (mod dep : VendoredModule),
        lookupDep deps mod.ModuleName = some dep →
        (mod.Version.IsNewer dep.Version = true →
          lookupDep (depInsert deps mod) mod.ModuleName = some mod)
        ∧ (mod.Version.IsNewer dep.Version = false → depInsert deps mod = deps))
    ∧ (∀ (l : List VendoredModule) (name : Path),
        (lookupDep (mergeDeps l) name).map (fun d => d.Version)
          = maxVersion
              ((l.filter (fun d => d.ModuleName == name)).map (fun d => d.Version)))
    ∧ (∀ (l : List VendoredModule) (name : Path) (dep : VendoredModule),
        lookupDep (mergeDeps l) name = some dep → dep ∈ l ∧ dep.ModuleName = name)
    ∧ (∀ (l1 l2 : List VendoredModule) (name : Path), l1.Perm l2 →
        (lookupDep (mergeDeps l1) name).map (fun d => d.Version)
          = (lookupDep (mergeDeps l2) name).map (fun d => d.Version)) := by
  refine ⟨?_, ?_, mergeDeps_version_char, mergeDeps_mem, ?_⟩
  · intro deps mod h
    rw [lookupDep_depInsert]
    simp [h]
  · intro deps mod dep h
    refine ⟨?_, ?_⟩
    · intro hnew
      rw [lookupDep_depInsert]
      simp [h, hnew]
    · intro hnot
      simp [depInsert, h, hnot]
  · intro l1 l2 name hperm
    rw [mergeDeps_version_char, mergeDeps_version_char]
    exact maxVersion_perm ((hperm.filter _).map _)

/-- Witness for C2: inserting into an empty map retains the record, and
merging pkg/x at 1.0.0 and 1.2.0 retains the same version in either
processing order. -/
theorem mergeDeps_newest_wins_witness :
    lookupDep (depInsert [] ⟨["pkg", "x"], ⟨1, 0, 0⟩, ["la"]⟩) ["pkg", "x"]
      = some ⟨["pkg", "x"], ⟨1, 0, 0⟩, ["la"]⟩
    ∧ (lookupDep (mergeDeps [⟨["pkg", "x"], ⟨1, 0, 0⟩, ["la"]⟩,
          ⟨["pkg", "x"], ⟨1, 2, 0⟩, ["lb"]⟩]) ["pkg", "x"]).map (fun d => d.Version)
      = (lookupDep (mergeDeps [⟨["pkg", "x"], ⟨1, 2, 0⟩, ["lb"]⟩,
          ⟨["pkg", "x"], ⟨1, 0, 0⟩, ["la"]⟩]) ["pkg", "x"]).map (fun d => d.Version) :=
  ⟨mergeDeps_newest_wins.1 [] ⟨["pkg", "x"], ⟨1, 0, 0⟩, ["la"]⟩ rfl,
   mergeDeps_newest_wins.2.2.2.2
     [⟨["pkg", "x"], ⟨1, 0, 0⟩, ["la"]⟩, ⟨["pkg", "x"], ⟨1, 2, 0⟩, ["lb"]⟩]
     [⟨["pkg", "x"], ⟨1, 2, 0⟩, ["lb"]⟩, ⟨["pkg", "x"], ⟨1, 0, 0⟩, ["la"]⟩]
     ["pkg", "x"] (List.Perm.swap _ _ _)⟩

/-- C1 (evaluation at the failing input): with module A vendoring
dependency a/x and module B vendoring a/y, the promote loop's
`os.RemoveAll(targetDir.Parent())` deletes the already promoted sibling
a/x while promoting a/y, so the function succeeds yet the workspace no
longer contains the a/x tree even though the final dependency map retains
its record. -/
theorem copyModules_promote_removes_sibling :
    copyModulesToWorkspace ["go", "src"]
        [⟨["modA"], [["go.mod"], ["vendor", "modules.txt"], ["vendor", "a", "x", "x.go"]],
           [⟨["a", "x"], ⟨1, 0, 0⟩, ["go", "src", "modA", "vendor", "a", "x"]⟩]⟩,
         ⟨["modB"], [["go.mod"], ["vendor", "modules.txt"], ["vendor", "a", "y", "y.go"]],
           [⟨["a", "y"], ⟨1, 0, 0⟩, ["go", "src", "modB", "vendor", "a", "y"]⟩]⟩] []
      = .ok [["go", "src", "modA", "go.mod"], ["go", "src", "modB", "go.mod"],
             ["go", "src", "a", "y", "y.go"]]
    ∧ lookupDep (mergeDeps (allVendored
        [⟨["modA"], [["go.mod"], ["vendor", "modules.txt"], ["vendor", "a", "x", "x.go"]],
           [⟨["a", "x"], ⟨1, 0, 0⟩, ["go", "src", "modA", "vendor", "a", "x"]⟩]⟩,
         ⟨["modB"], [["go.mod"], ["vendor", "modules.txt"], ["vendor", "a", "y", "y.go"]],
           [⟨["a", "y"], ⟨1, 0, 0⟩, ["go", "src", "modB", "vendor", "a", "y"]⟩]⟩]))
        ["a", "x"]
      = some ⟨["a", "x"], ⟨1, 0, 0⟩, ["go", "src", "modA", "vendor", "a", "x"]⟩
    ∧ existsDir [["go", "src", "modA", "go.mod"], ["go", "src", "modB", "go.mod"],
             ["go", "src", "a", "y", "y.go"]] ["go", "src", "a", "x"] = false := by
  refine ⟨?_, ?_, ?_⟩ <;> rfl

/-- Membership in a subtree removal. -/
theorem mem_removeAll {fs : FS} {p q : Path} (h : q ∈ removeAll fs p) :
    q ∈ fs ∧ pathLe p q = false := by
  have h2 := List.mem_filter.mp h
  refine ⟨h2.1, ?_⟩
  simpa using h2.2

/-- The cleanup loop only removes files. -/
theorem cleanupPhase_subset (g : Path) (names : List Path) :
    ∀ (fs : FS) (q : Path), q ∈ cleanupPhase g names fs → q ∈ fs := by
  induction names with
  | nil =>
    intro fs q h
    simpa [cleanupPhase] using h
  | cons n rest ih =>
    intro fs q h
    have hq : q ∈ removeAll fs (g ++ n ++ ["vendor"]) :=
      ih _ q (by simpa [cleanupPhase] using h)
    exact (mem_removeAll hq).1

/-- After the cleanup loop, no file survives below any cleaned vendor
directory. -/
theorem cleanupPhase_no_vendor (g mpath : Path) :
    ∀ (names : List Path), mpath ∈ names → ∀ (fs : FS) (q : Path),
      q ∈ cleanupPhase g names fs → pathLe (g ++ mpath ++ ["vendor"]) q = false := by
  intro names
  induction names with
  | nil => intro hm; cases hm
  | cons n rest ih =>
    intro hm fs q h
    rcases List.mem_cons.mp hm with h1 | h2
    · subst h1
      have hq : q ∈ removeAll fs (g ++ mpath ++ ["vendor"]) :=
        cleanupPhase_subset g rest _ q (by simpa [cleanupPhase] using h)
      exact (mem_removeAll hq).2
    · exact ih h2 _ q (by simpa [cleanupPhase] using h)

/-- C9: after a successful `copyModulesToWorkspace`, the promoted copy of
every originally resolved module retains no nested vendor subtree. -/
theorem copyModules_cleanup_no_vendor (goPathSrc : Path) (modules : List ModuleInput)
    (fs0 fsF : FS) (h : copyModulesToWorkspace goPathSrc modules fs0 = .ok fsF)
    (m : ModuleInput) (hm : m ∈ modules) (q : Path) (hq : q ∈ fsF) :
    pathLe (goPathSrc ++ m.modName ++ ["vendor"]) q = false := by
  simp only [copyModulesToWorkspace] at h
  cases hp : promotePhase goPathSrc (mergeDeps (allVendored modules))
      (modules.foldl (stageModule goPathSrc) fs0) with
  | error e =>
    rw [hp] at h
    cases h
  | ok fs2 =>
    rw [hp] at h
    have hF : cleanupPhase goPathSrc (modules.map (fun mm => mm.modName)) fs2 = fsF := by
      simpa using h
    subst hF
    exact cleanupPhase_no_vendor goPathSrc m.modName _
      (List.mem_map_of_mem _ hm) fs2 q hq

/-- Witness for C9: a single module whose copy carries a vendor file;
after the run the remaining file is not below the module vendor path. -/
theorem copyModules_cleanup_no_vendor_witness :
    pathLe (["src"] ++ ["m"] ++ ["vendor"]) ["src", "m", "go.mod"] = false :=
  copyModules_cleanup_no_vendor ["src"]
    [⟨["m"], [["go.mod"], ["vendor", "v.go"]], []⟩] [] [["src", "m", "go.mod"]]
    rfl ⟨["m"], [["go.mod"], ["vendor", "v.go"]], []⟩ (by simp)
    ["src", "m", "go.mod"] (by simp)

/-! ## Path lemmas (towards C7) -/

/-- Containment is invariant under a common leading run. -/
theorem pathLe_append_cancel (a : Path) : ∀ (b c : Path),
    pathLe (a ++ b) (a ++ c) = pathLe b c := by
  induction a with
  | nil => intro b c; rfl
  | cons x xs ih => intro b c; simp [pathLe, ih]

/-- A path contains everything below itself. -/
theorem pathLe_self_append (p q : Path) : pathLe p (p ++ q) = true := by
  have h := pathLe_append_cancel p [] q
  simpa using h

/-- Containment by an extension implies containment by the base. -/
theorem pathLe_of_append (p : Path) : ∀ (r q : Path),
    pathLe (p ++ r) q = true → pathLe p q = true := by
  induction p with
  | nil => intro r q _; rfl
  | cons x xs ih =>
    intro r q h
    cases q with
    | nil => simp [pathLe] at h
    | cons y ys =>
      simp only [List.cons_append, pathLe, Bool.and_eq_true] at h ⊢
      exact ⟨h.1, ih r ys h.2⟩

/-- Appending ".tmp" to a string changes it. -/
theorem append_tmp_ne (str : String) : str ++ ".tmp" ≠ str := by
  intro h
  have h2 := congrArg String.length h
  rw [String.length_append] at h2
  have h4 : (".tmp" : String).length = 4 := rfl
  omega

/-- The staging directory contains nothing at or below the target
directory. -/
theorem pathLe_tmp_target (args : Args) (res : Resource) (x : Path) :
    pathLe (tmpTargetFolder args res) (targetFolder args res ++ x) = false := by
  show pathLe (args.HomeDir ++ ["toolchains", res.Name ++ "-" ++ res.Version ++ ".tmp"])
      ((args.HomeDir ++ ["toolchains", res.Name ++ "-" ++ res.Version]) ++ x) = false
  rw [List.append_assoc]
  rw [pathLe_append_cancel]
  simp only [List.cons_append, pathLe, List.nil_append, Bool.and_eq_false_iff]
  right
  left
  exact beq_eq_false_iff_ne.mpr (append_tmp_ne (res.Name ++ "-" ++ res.Version))

/-- Renaming a subtree that holds no file is the identity. -/
theorem renameTree_of_no_match {src dst : Path} : ∀ (fs : FS),
    (∀ q ∈ fs, pathLe src q = false) → renameTree fs src dst = fs := by
  intro fs
  induction fs with
  | nil => intro _; rfl
  | cons q qs ih =>
    intro h
    have hq := h q (List.mem_cons_self q qs)
    have ih2 := ih (fun r hr => h r (List.mem_cons_of_mem q hr))
    simp only [renameTree] at ih2 ⊢
    simp [hq, ih2]

/-- Removing a subtree that holds no file is the identity. -/
theorem removeAll_of_no_match {p : Path} : ∀ (fs : FS),
    (∀ q ∈ fs, pathLe p q = false) → removeAll fs p = fs := by
  intro fs
  induction fs with
  | nil => intro _; rfl
  | cons q qs ih =>
    intro h
    have hq := h q (List.mem_cons_self q qs)
    have ih2 := ih (fun r hr => h r (List.mem_cons_of_mem q hr))
    simp only [removeAll] at ih2 ⊢
    simp [hq, ih2]

/-- Files below a directory, when none qualifies. -/
theorem filesUnder_of_none {p : Path} : ∀ (fs : FS),
    (∀ q ∈ fs, pathLe p q = false) → filesUnder fs p = [] := by
  intro fs
  induction fs with
  | nil => intro _; rfl
  | cons q qs ih =>
    intro h
    have hq := h q (List.mem_cons_self q qs)
    have ih2 := ih (fun r hr => h r (List.mem_cons_of_mem q hr))
    simp only [filesUnder] at ih2 ⊢
    simp [hq, ih2]

/-- Files below a directory, when all qualify. -/
theorem filesUnder_of_all {p : Path} : ∀ (fs : FS),
    (∀ q ∈ fs, pathLe p q = true) → filesUnder fs p = fs := by
  intro fs
  induction fs with
  | nil => intro _; rfl
  | cons q qs ih =>
    intro h
    have hq := h q (List.mem_cons_self q qs)
    have ih2 := ih (fun r hr => h r (List.mem_cons_of_mem q hr))
    simp only [filesUnder] at ih2 ⊢
    simp [hq, ih2]

/-- Every extracted path of a single-top-entry archive starts with that
entry. -/
theorem head_of_topEntries_singleton {rel : List Path} {e : String}
    (he : topEntries rel = [e]) (p : Path) (hp : p ∈ rel) (hne : p ≠ []) :
    p.head? = some e := by
  cases p with
  | nil => exact absurd rfl hne
  | cons h t =>
    have hmem : h ∈ rel.filterMap List.head? :=
      List.mem_filterMap.mpr ⟨h :: t, hp, rfl⟩
    have hdedup : h ∈ (rel.filterMap List.head?).dedup := List.mem_dedup.mpr hmem
    rw [show (rel.filterMap List.head?).dedup = topEntries rel from rfl, he] at hdedup
    simp only [List.mem_singleton] at hdedup
    simp [hdedup]

/-- A singleton top-entry list means some extracted path starts with the
entry. -/
theorem exists_head_of_topEntries_singleton {rel : List Path} {e : String}
    (he : topEntries rel = [e]) : ∃ p ∈ rel, p.head? = some e := by
  have hmem : e ∈ (rel.filterMap List.head?).dedup := by
    rw [show (rel.filterMap List.head?).dedup = topEntries rel from rfl, he]
    exact List.mem_singleton.mpr rfl
  have h2 := List.mem_dedup.mp hmem
  rcases List.mem_filterMap.mp h2 with ⟨p, hp, hh⟩
  exact ⟨p, hp, hh⟩

/-- Evaluation of the ensure step in the single-top-directory case. -/
theorem ensure_eval_unwrap (args : Args) (fs : FS) (res : Resource) (rel : List Path)
    (e : String)
    (hne : existsDir fs (targetFolder args res) = false)
    (he : topEntries rel = [e])
    (hdir : isDirEntry rel e = true)
    (hex : existsDir (removeAll fs (tmpTargetFolder args res)
        ++ rel.map (fun p => tmpTargetFolder args res ++ p))
        (tmpTargetFolder args res ++ [e]) = true) :
    ensureToolchainResource args fs res (.ok rel)
      = { downloads := 1
          renames := [(tmpTargetFolder args res ++ [e], targetFolder args res)]
          fs := removeAll (renameTree (removeAll fs (tmpTargetFolder args res)
              ++ rel.map (fun p => tmpTargetFolder args res ++ p))
              (tmpTargetFolder args res ++ [e]) (targetFolder args res))
              (tmpTargetFolder args res)
          path := some (targetFolder args res)
          result := .ok () } := by
  simp [ensureToolchainResource, hne, he, hdir, renameFs, hex]

/-- Evaluation of the ensure step when the staging root is the final
content. -/
theorem ensure_eval_root (args : Args) (fs : FS) (res : Resource) (rel : List Path)
    (hne : existsDir fs (targetFolder args res) = false)
    (hshape : (∃ e, topEntries rel = [e] ∧ isDirEntry rel e = false)
      ∨ ∃ e1 e2 rest, topEntries rel = e1 :: e2 :: rest)
    (hex : existsDir (removeAll fs (tmpTargetFolder args res)
        ++ rel.map (fun p => tmpTargetFolder args res ++ p))
        (tmpTargetFolder args res) = true) :
    ensureToolchainResource args fs res (.ok rel)
      = { downloads := 1
          renames := [(tmpTargetFolder args res, targetFolder args res)]
          fs := removeAll (renameTree (removeAll fs (tmpTargetFolder args res)
              ++ rel.map (fun p => tmpTargetFolder args res ++ p))
              (tmpTargetFolder args res) (targetFolder args res))
              (tmpTargetFolder args res)
          path := some (targetFolder args res)
          result := .ok () } := by
  rcases hshape with ⟨e, he, hdir⟩ | ⟨e1, e2, rest, he⟩
  · simp [ensureToolchainResource, hne, he, hdir, renameFs, hex]
  · simp [ensureToolchainResource, hne, he, renameFs, hex]

/-- Renaming distributes over list append. -/
theorem renameTree_append (a b : FS) (src dst : Path) :
    renameTree (a ++ b) src dst = renameTree a src dst ++ renameTree b src dst := by
  simp [renameTree]

/-- Removal distributes over list append. -/
theorem removeAll_append (a b : FS) (p : Path) :
    removeAll (a ++ b) p = removeAll a p ++ removeAll b p := by
  simp [removeAll]

/-- Restriction distributes over list append. -/
theorem filesUnder_append (a b : FS) (p : Path) :
    filesUnder (a ++ b) p = filesUnder a p ++ filesUnder b p := by
  simp [filesUnder]

/-- With a single top entry, every extracted path lies below it. -/
theorem pathLe_singleton_of_topEntries {rel : List Path} {e : String}
    (he : topEntries rel = [e]) (hwf : ∀ p ∈ rel, p ≠ []) :
    ∀ p ∈ rel, pathLe [e] p = true := by
  intro p hp
  have hh := head_of_topEntries_singleton he p hp (hwf p hp)
  cases p with
  | nil => exact absurd rfl (hwf [] hp)
  | cons a t =>
    simp only [List.head?_cons, Option.some.injEq] at hh
    simp [pathLe, hh]

/-- Renaming the single inner directory re-roots every staged file one
level up. -/
theorem renameTree_staged_unwrap (tmp target : Path) (rel : List Path) (e : String)
    (hheads : ∀ p ∈ rel, pathLe [e] p = true) :
    renameTree (rel.map (fun p => tmp ++ p)) (tmp ++ [e]) target
      = rel.map (fun p => target ++ p.drop 1) := by
  simp only [renameTree, List.map_map]
  refine List.map_congr_left ?_
  intro p hp
  simp only [Function.comp]
  rw [pathLe_append_cancel tmp [e] p, hheads p hp]
  simp only [if_true]
  congr 1
  rw [List.length_append]
  simp only [List.length_cons, List.length_nil, Nat.zero_add]
  rw [List.drop_append]

/-- Renaming the staging root re-roots every staged file. -/
theorem renameTree_staged_root (tmp target : Path) (rel : List Path) :
    renameTree (rel.map (fun p => tmp ++ p)) tmp target
      = rel.map (fun p => target ++ p) := by
  simp only [renameTree, List.map_map]
  refine List.map_congr_left ?_
  intro p _
  simp only [Function.comp]
  rw [pathLe_self_append]
  simp only [if_true]
  congr 1
  exact List.drop_left tmp p

/-- An absent directory has no file below it. -/
theorem pathLe_false_of_existsDir_false {fs : FS} {p : Path}
    (h : existsDir fs p = false) : ∀ q ∈ fs, pathLe p q = false := by
  intro q hq
  rw [existsDir, List.any_eq_false] at h
  simpa using h q hq

/-- Final filesystem of the unwrap branch. -/
theorem ensure_fs_unwrap_shape (args : Args) (fs : FS) (res : Resource)
    (rel : List Path) (e : String)
    (hheads : ∀ p ∈ rel, pathLe [e] p = true) :
    removeAll (renameTree (removeAll fs (tmpTargetFolder args res)
        ++ rel.map (fun p => tmpTargetFolder args res ++ p))
        (tmpTargetFolder args res ++ [e]) (targetFolder args res))
        (tmpTargetFolder args res)
      = removeAll fs (tmpTargetFolder args res)
        ++ rel.map (fun p => targetFolder args res ++ p.drop 1) := by
  have hA : ∀ q ∈ removeAll fs (tmpTargetFolder args res),
      pathLe (tmpTargetFolder args res) q = false :=
    fun q hq => (mem_removeAll hq).2
  have hAinner : ∀ q ∈ removeAll fs (tmpTargetFolder args res),
      pathLe (tmpTargetFolder args res ++ [e]) q = false := by
    intro q hq
    cases hpq : pathLe (tmpTargetFolder args res ++ [e]) q with
    | false => rfl
    | true =>
      have h2 := pathLe_of_append (tmpTargetFolder args res) [e] q hpq
      rw [hA q hq] at h2
      cases h2
  have hC : ∀ q ∈ rel.map (fun p => targetFolder args res ++ p.drop 1),
      pathLe (tmpTargetFolder args res) q = false := by
    intro q hq
    rcases List.mem_map.mp hq with ⟨p, _, hpq⟩
    rw [← hpq]
    exact pathLe_tmp_target args res (p.drop 1)
  rw [renameTree_append, renameTree_of_no_match _ hAinner,
    renameTree_staged_unwrap _ _ _ _ hheads, removeAll_append,
    removeAll_of_no_match _ hA, removeAll_of_no_match _ hC]

/-- Final filesystem of the staging-root branch. -/
theorem ensure_fs_root_shape (args : Args) (fs : FS) (res : Resource)
    (rel : List Path) :
    removeAll (renameTree (removeAll fs (tmpTargetFolder args res)
        ++ rel.map (fun p => tmpTargetFolder args res ++ p))
        (tmpTargetFolder args res) (targetFolder args res))
        (tmpTargetFolder args res)
      = removeAll fs (tmpTargetFolder args res)
        ++ rel.map (fun p => targetFolder args res ++ p) := by
  have hA : ∀ q ∈ removeAll fs (tmpTargetFolder args res),
      pathLe (tmpTargetFolder args res) q = false :=
    fun q hq => (mem_removeAll hq).2
  have hC : ∀ q ∈ rel.map (fun p => targetFolder args res ++ p),
      pathLe (tmpTargetFolder args res) q = false := by
    intro q hq
    rcases List.mem_map.mp hq with ⟨p, _, hpq⟩
    rw [← hpq]
    exact pathLe_tmp_target args res p
  rw [renameTree_append, renameTree_of_no_match _ hA,
    renameTree_staged_root, removeAll_append,
    removeAll_of_no_match _ hA, removeAll_of_no_match _ hC]

/-- The files below the target after a successful extraction are exactly
the promoted ones. -/
theorem ensure_filesUnder_target (args : Args) (fs : FS) (res : Resource)
    (mapped : FS) (hne : existsDir fs (targetFolder args res) = false)
    (hmapped : ∀ q ∈ mapped, pathLe (targetFolder args res) q = true) :
    filesUnder (removeAll fs (tmpTargetFolder args res) ++ mapped)
        (targetFolder args res) = mapped := by
  rw [filesUnder_append, filesUnder_of_all _ hmapped, filesUnder_of_none]
  · rfl
  · intro q hq
    exact pathLe_false_of_existsDir_false hne q (mem_removeAll hq).1

/-- A nonempty top-entry list comes from a nonempty extraction. -/
theorem exists_mem_of_topEntries_ne_nil {rel : List Path}
    (h : topEntries rel ≠ []) : ∃ p, p ∈ rel := by
  cases rel with
  | nil => exact absurd rfl h
  | cons p ps => exact ⟨p, List.mem_cons_self p ps⟩

/-- C7 (amended): when the archive unpacks to exactly one top-level
directory entry, the provisioned target's contents are that inner
directory's contents directly, not nested one level deeper; otherwise the
staging root's contents become the final content; in both cases the target
comes into existence via a single atomic rename performed after a fully
successful extraction - of the staging directory's single inner directory
in the unwrap case, and of the staging directory itself otherwise. -/
theorem ensure_single_rename_amended (args : Args) (fs : FS) (res : Resource)
    (rel : List Path)
    (hne : existsDir fs (targetFolder args res) = false)
    (hwf : ∀ p ∈ rel, p ≠ []) :
    (∀ e : String, topEntries rel = [e] → isDirEntry rel e = true →
      ensureToolchainResource args fs res (.ok rel)
        = { downloads := 1
            renames := [(tmpTargetFolder args res ++ [e], targetFolder args res)]
            fs := removeAll fs (tmpTargetFolder args res)
                ++ rel.map (fun p => targetFolder args res ++ p.drop 1)
            path := some (targetFolder args res)
            result := .ok () }
      ∧ filesUnder (ensureToolchainResource args fs res (.ok rel)).fs
            (targetFolder args res)
          = rel.map (fun p => targetFolder args res ++ p.drop 1))
    ∧ (((∃ e, topEntries rel = [e] ∧ isDirEntry rel e = false)
        ∨ ∃ e1 e2 rest, topEntries rel = e1 :: e2 :: rest) →
      ensureToolchainResource args fs res (.ok rel)
        = { downloads := 1
            renames := [(tmpTargetFolder args res, targetFolder args res)]
            fs := removeAll fs (tmpTargetFolder args res)
                ++ rel.map (fun p => targetFolder args res ++ p)
            path := some (targetFolder args res)
            result := .ok () }
      ∧ filesUnder (ensureToolchainResource args fs res (.ok rel)).fs
            (targetFolder args res)
          = rel.map (fun p => targetFolder args res ++ p)) := by
  constructor
  · intro e he hdir
    have hheads := pathLe_singleton_of_topEntries he hwf
    rcases exists_head_of_topEntries_singleton he with ⟨p0, hp0, _⟩
    have hex : existsDir (removeAll fs (tmpTargetFolder args res)
        ++ rel.map (fun p => tmpTargetFolder args res ++ p))
        (tmpTargetFolder args res ++ [e]) = true := by
      rw [existsDir, List.any_eq_true]
      refine ⟨tmpTargetFolder args res ++ p0,
        List.mem_append_right _ (List.mem_map_of_mem _ hp0), ?_⟩
      rw [pathLe_append_cancel]
      exact hheads p0 hp0
    have heval := ensure_eval_unwrap args fs res rel e hne he hdir hex
    have hshape := ensure_fs_unwrap_shape args fs res rel e hheads
    constructor
    · rw [heval, hshape]
    · rw [heval]
      show filesUnder (removeAll (renameTree _ _ _) _) (targetFolder args res) = _
      rw [hshape]
      refine ensure_filesUnder_target args fs res _ hne ?_
      intro q hq
      rcases List.mem_map.mp hq with ⟨p, _, hpq⟩
      rw [← hpq]
      exact pathLe_self_append _ _
  · intro hshape2
    have hrelne : ∃ p, p ∈ rel := by
      rcases hshape2 with ⟨e, he, _⟩ | ⟨e1, e2, rest, he⟩
      · exact exists_mem_of_topEntries_ne_nil (by rw [he]; simp)
      · exact exists_mem_of_topEntries_ne_nil (by rw [he]; simp)
    rcases hrelne with ⟨p0, hp0⟩
    have hex : existsDir (removeAll fs (tmpTargetFolder args res)
        ++ rel.map (fun p => tmpTargetFolder args res ++ p))
        (tmpTargetFolder args res) = true := by
      rw [existsDir, List.any_eq_true]
      exact ⟨tmpTargetFolder args res ++ p0,
        List.mem_append_right _ (List.mem_map_of_mem _ hp0),
        pathLe_self_append _ _⟩
    have heval := ensure_eval_root args fs res rel hne hshape2 hex
    have hshape := ensure_fs_root_shape args fs res rel
    constructor
    · rw [heval, hshape]
    · rw [heval]
      show filesUnder (removeAll (renameTree _ _ _) _) (targetFolder args res) = _
      rw [hshape]
      refine ensure_filesUnder_target args fs res _ hne ?_
      intro q hq
      rcases List.mem_map.mp hq with ⟨p, _, hpq⟩
      rw [← hpq]
      exact pathLe_self_append _ _

/-- C7 (counterexample to the claim as stated): it is not the case that
every successful extraction creates the target by a rename whose source is
the staging directory itself; for an archive with the single top-level
directory go, the recorded rename source is the inner directory
toolchains/go-1.12.4.tmp/go, not the staging directory. -/
theorem ensure_rename_staging_counterexample :
    ¬ (∀ (args : Args) (fs : FS) (res : Resource) (rel : List Path),
        (ensureToolchainResource args fs res (.ok rel)).result = .ok () →
        existsDir fs (targetFolder args res) = false →
        (ensureToolchainResource args fs res (.ok rel)).renames
          = [(tmpTargetFolder args res, targetFolder args res)]) := by
  intro h
  have h2 := h ⟨["home"], ["base"], ["all"], "u"⟩ [] ⟨"go", "1.12.4", "u"⟩
      [["go", "README"], ["go", "bin", "gobin"]] rfl rfl
  exact absurd h2 (by decide)

/-- Witness for the amended C7: concrete single-top-directory archive,
unwrapped by one rename of the inner directory. -/
theorem ensure_single_rename_amended_witness :
    ensureToolchainResource ⟨["home"], ["base"], ["all"], "u"⟩ []
        ⟨"go", "1.12.4", "u"⟩ (.ok [["go", "README"], ["go", "bin", "gobin"]])
      = { downloads := 1
          renames := [(["home", "toolchains", "go-1.12.4.tmp", "go"],
            ["home", "toolchains", "go-1.12.4"])]
          fs := [["home", "toolchains", "go-1.12.4", "README"],
                 ["home", "toolchains", "go-1.12.4", "bin", "gobin"]]
          path := some ["home", "toolchains", "go-1.12.4"]
          result := .ok () } := by
  have h := (ensure_single_rename_amended ⟨["home"], ["base"], ["all"], "u"⟩ []
      ⟨"go", "1.12.4", "u"⟩ [["go", "README"], ["go", "bin", "gobin"]]
      rfl (by decide)).1 "go" rfl rfl
  exact h.1.trans (by rfl)

end GoupModel
